import Mathlib

/-!
Shallow embedding of the `traces` Go package: a `Series` stores a discrete
step function as a map from x to y (modelled as an association list with
unique keys, standing for the Go map `points`), an ascending slice `sorted`
of merged keys, and an `unsorted` write buffer of keys not yet merged.
Mutating operations are modelled by explicit state passing: each Go method
that can trigger the lazy merge returns the new `Series` alongside its value.
-/

namespace Traces

/-- Association-list lookup, modelling a read of the Go map `points`. -/
def lookup' (x : Int) : List (Int × Int) → Option Int
  | [] => none
  | (k, v) :: rest => if x = k then some v else lookup' x rest

/-- Go map read returning the zero value when the key is absent. -/
def lookupD (x : Int) (pts : List (Int × Int)) : Int :=
  (lookup' x pts).getD 0

/-- The key set of the map, as a list (unique under well-formedness). -/
def keysOf (pts : List (Int × Int)) : List Int :=
  pts.map Prod.fst

/-- Go `delete(m, x)`: removes the (unique) entry with key x. -/
def eraseKey (x : Int) (pts : List (Int × Int)) : List (Int × Int) :=
  pts.filter (fun p => p.1 ≠ x)

/-- Go `m[x] = y` on a key already present: replace the value at x. -/
def setVal (x y : Int) (pts : List (Int × Int)) : List (Int × Int) :=
  pts.map (fun p => if p.1 = x then (x, y) else p)

/-- The `Series` struct of series.go: `points` is the authoritative map,
`sorted` the merged ascending keys, `unsorted` the pending write buffer. -/
structure Series where
  points : List (Int × Int)
  sorted : List Int
  unsorted : List Int
deriving DecidableEq, Repr

/-- `NewSeries` returns a new, empty Series. -/
def NewSeries : Series :=
  { points := [], sorted := [], unsorted := [] }

/-- `NewSeriesData` prefills a Series with the data of the map: every key
starts in `unsorted`. -/
def NewSeriesData (data : List (Int × Int)) : Series :=
  { points := data, sorted := [], unsorted := keysOf data }

/-- The internal `sort` method: merge `unsorted` into `sorted` and re-sort.
Go uses `sort.Slice` with the `<` comparison; on lists with distinct
elements every comparison sort returns the same list, here written as
`List.insertionSort (· ≤ ·)`. -/
def Series.sort (s : Series) : Series :=
  if s.unsorted.isEmpty then s
  else
    { points := s.points
      sorted := List.insertionSort (· ≤ ·) (s.sorted ++ s.unsorted)
      unsorted := [] }

/-- The loop of `find`, with an explicit fuel argument bounding the number
of iterations: bounds i, j with sorted[i] ≤ x < sorted[j] are narrowed
until j - i = 1 or the exact key is hit. Each iteration shrinks j - i by at
least one, so fuel j - i runs the Go loop to completion; when the fuel is
exhausted j - i ≤ 0 and the loop would exit anyway. Indexing is modelled
with `getD`; inside `find` the indices are always in bounds. -/
def findLoopF (l : List Int) (x : Int) : Nat → Nat → Nat → Nat
  | 0, i, _ => i
  | fuel + 1, i, j =>
      if 1 < j - i then
        if x = l.getD ((i + j + 1) / 2) 0 then (i + j + 1) / 2
        else if l.getD ((i + j + 1) / 2) 0 < x then findLoopF l x fuel ((i + j + 1) / 2) j
        else findLoopF l x fuel i ((i + j + 1) / 2)
      else i

/-- The loop of `find`, run with enough fuel for its bounds. -/
def findLoop (l : List Int) (x : Int) (i j : Nat) : Nat :=
  findLoopF l x (j - i) i j

/-- `find` returns the largest index i with sorted[i] ≤ x, or -1 when
`sorted` is empty or x is below its first element. -/
def Series.find (s : Series) (x : Int) : Int :=
  if s.sorted.isEmpty ∨ x < s.sorted.headD 0 then -1
  else ((findLoop s.sorted x 0 s.sorted.length : Nat) : Int)

/-- `Size` returns the number of stored points. -/
def Series.Size (s : Series) : Nat :=
  s.points.length

/-- `Has` returns true if there is a stored point at x. -/
def Series.Has (s : Series) (x : Int) : Bool :=
  (lookup' x s.points).isSome

/-- `Set` adds the point (x, y), replacing an existing point at x; a new
key is appended to `unsorted`. -/
def Series.Set (s : Series) (x y : Int) : Series :=
  match lookup' x s.points with
  | none =>
      { points := (x, y) :: s.points
        sorted := s.sorted
        unsorted := s.unsorted ++ [x] }
  | some _ => { s with points := setVal x y s.points }

/-- `Get` retrieves f(x): the stored y at the exact key, else the y at the
largest stored key below x, else 0. The miss path merges the buffer. -/
def Series.Get (s : Series) (x : Int) : Int × Series :=
  match lookup' x s.points with
  | some y => (y, s)
  | none =>
      let s1 := s.sort
      let i := s1.find x
      if i < 0 then (0, s1)
      else (lookupD (s1.sorted.getD i.toNat 0) s1.points, s1)

/-- `Remove` deletes the stored point at x if it exists: merge, locate x in
`sorted` with `find`, splice it out, delete from the map. On the miss path
the state is returned untouched. When x is stored the `find` result is
nonnegative; the `toNat` on the (unreachable) -1 case models the slice
bound that Go would panic on. -/
def Series.Remove (s : Series) (x : Int) : Series :=
  match lookup' x s.points with
  | none => s
  | some _ =>
      let s1 := s.sort
      let i := s1.find x
      { points := eraseKey x s1.points
        sorted := s1.sorted.eraseIdx i.toNat
        unsorted := s1.unsorted }

/-- The loop of `Compact` over sorted[1:]: a point whose y equals the y of
the last retained point is deleted from the map, all others are retained
(appended to the new sorted slice and made the new comparison value). -/
def compactLoop (pts : List (Int × Int)) (lastY : Int) : List Int → List (Int × Int) × List Int
  | [] => (pts, [])
  | x :: rest =>
      if lookupD x pts = lastY then compactLoop (eraseKey x pts) lastY rest
      else
        let r := compactLoop pts (lookupD x pts) rest
        (r.1, x :: r.2)

/-- `Compact` removes redundant stored points: the second of two consecutive
points with equal y. The first point is always retained. Fewer than two
points: early return, untouched. The empty-sorted inner case is unreachable
(Go reads sorted[0] there, which would panic; a merged state holding at
least two points has a nonempty sorted slice). -/
def Series.Compact (s : Series) : Series :=
  if s.points.length < 2 then s
  else
    let s1 := s.sort
    match s1.sorted with
    | [] => s1
    | x0 :: rest =>
        let r := compactLoop s1.points (lookupD x0 s1.points) rest
        { points := r.1
          sorted := x0 :: r.2
          unsorted := s1.unsorted }

/-- `Xs` merges and returns (a copy of) the ascending key slice. -/
def Series.Xs (s : Series) : List Int × Series :=
  let s1 := s.sort
  (s1.sorted, s1)

/-- `X0` merges and returns the smallest stored x, or 0 when empty. -/
def Series.X0 (s : Series) : Int × Series :=
  let s1 := s.sort
  (s1.sorted.headD 0, s1)

/-- `Floor` returns the largest stored x₀ ≤ x with a found flag. -/
def Series.Floor (s : Series) (x : Int) : (Int × Bool) × Series :=
  if s.points.isEmpty then ((0, false), s)
  else
    let s1 := s.sort
    let i := s1.find x
    if i < 0 then ((0, false), s1)
    else ((s1.sorted.getD i.toNat 0, true), s1)

/-- `Ceiling` returns the smallest stored x₁ ≥ x with a found flag; an
exact stored key returns (x, true) before any merge. -/
def Series.Ceiling (s : Series) (x : Int) : (Int × Bool) × Series :=
  if s.points.isEmpty then ((0, false), s)
  else
    match lookup' x s.points with
    | some _ => ((x, true), s)
    | none =>
        let s1 := s.sort
        let i := s1.find x + 1
        if (s1.sorted.length : Int) ≤ i then ((0, false), s1)
        else ((s1.sorted.getD i.toNat 0, true), s1)

/-- `Copy` merges the source (a side effect kept by returning the sorted
source in the second component) and returns an independent clone. -/
def Series.Copy (s : Series) : Series × Series :=
  let s1 := s.sort
  ({ points := s1.points, sorted := s1.sorted, unsorted := [] }, s1)

/-- `Equals` is `reflect.DeepEqual` of the two `points` maps: equal key
sets with equal values. -/
def Series.Equals (s s0 : Series) : Bool :=
  (s.points.all fun p => lookup' p.1 s0.points == some p.2) &&
    (s0.points.all fun p => lookup' p.1 s.points == some p.2)

/-- `Combine`, inner value gathering: `valueSet[i] = t0.Get(key)` over the
whole input list, threading each container's (possibly merged) state. -/
def getValues (x : Int) : List Series → List Int × List Series
  | [] => ([], [])
  | s :: rest =>
      let p := s.Get x
      let q := getValues x rest
      (p.1 :: q.1, p.2 :: q.2)

/-- `Combine`, inner loop over the keys of one input container: a key not
yet present in the accumulated map gets the value f(valueSet...). -/
def combineInner (f : List Int → Int) : List Int → List (Int × Int) → List Int → List Series → List (Int × Int) × List Int × List Series
  | [], pts, uns, st => (pts, uns, st)
  | k :: ks, pts, uns, st =>
      match lookup' k pts with
      | some _ => combineInner f ks pts uns st
      | none =>
          let r := getValues k st
          combineInner f ks ((k, f r.1) :: pts) (uns ++ [k]) r.2

/-- `Combine`, outer loop over the input containers. The Go loop reads the
key range of each input's `points`, which `Get` never modifies, so the keys
are taken from the entry state of each container. -/
def combineOuter (f : List Int → Int) : List Series → List (Int × Int) → List Int → List Series → List (Int × Int) × List Int × List Series
  | [], pts, uns, st => (pts, uns, st)
  | s :: rest, pts, uns, st =>
      let r := combineInner f (keysOf s.points) pts uns st
      combineOuter f rest r.1 r.2.1 r.2.2

/-- `Combine` applies reducer f pointwise at every stored key of every
input, producing a fresh container with all result keys unsorted. -/
def Combine (f : List Int → Int) (list : List Series) : Series :=
  let r := combineOuter f list [] [] list
  { points := r.1, sorted := [], unsorted := r.2.1 }

/-- `Sum` adds all the vals. -/
def Sum (vals : List Int) : Int :=
  vals.foldl (· + ·) 0

/-- `Diff` subtracts from the first value all the remaining values. -/
def Diff (vals : List Int) : Int :=
  match vals with
  | [] => 0
  | v :: rest => rest.foldl (· - ·) v

/-- `Any` is 1 if any value is nonzero, else 0. -/
def Any (vals : List Int) : Int :=
  vals.foldl (fun a v => if v ≠ 0 then 1 else a) 0

/-- `All` is 1 if all values are nonzero, else 0. -/
def All (vals : List Int) : Int :=
  vals.foldl (fun a v => if v = 0 then 0 else a) 1

/-! Specification-side canonical forms. -/

/-- The keys of the map in ascending order. -/
def canonKeys (pts : List (Int × Int)) : List Int :=
  List.insertionSort (· ≤ ·) (keysOf pts)

/-- The stored points in ascending key order. -/
def canonPairs (pts : List (Int × Int)) : List (Int × Int) :=
  (canonKeys pts).map fun k => (k, lookupD k pts)

/-- Step evaluation of an ascending pair list: the value of the last
breakpoint with key ≤ x, starting from acc. -/
def stepAcc (x acc : Int) : List (Int × Int) → Int
  | [] => acc
  | (k, v) :: rest => if k ≤ x then stepAcc x v rest else acc

/-- The mathematical step function denoted by a stored-point map:
y of the greatest key ≤ x, and 0 below every key. -/
def denote (pts : List (Int × Int)) (x : Int) : Int :=
  stepAcc x 0 (canonPairs pts)

/-- Specification of the Compact loop on an ascending pair list: drop a
pair whose value equals the last retained value, keep the others. -/
def keepSpec (y : Int) : List (Int × Int) → List (Int × Int)
  | [] => []
  | (k, v) :: rest => if v = y then keepSpec y rest else (k, v) :: keepSpec v rest

/-- Specification of Compact: the first pair is always kept. -/
def compactSpec : List (Int × Int) → List (Int × Int)
  | [] => []
  | (k, v) :: rest => (k, v) :: keepSpec v rest

/-- Invariants I1 and I2 of the Series struct: the map keys are unique and
are exactly the disjoint union of `sorted` and `unsorted`, and `sorted` is
strictly increasing. -/
def Inv (s : Series) : Prop :=
  (keysOf s.points).Nodup ∧
    (keysOf s.points).Perm (s.sorted ++ s.unsorted) ∧
    List.Sorted (· < ·) s.sorted

/-- The states reachable from a constructor through the public operations.
`Has`, `Size` and `Equals` read only the map and return no state, so they
are identities on the state and need no constructor. `NewSeriesData` takes
a Go map, whose keys are unique by construction. -/
inductive Reachable : Series → Prop
  | new : Reachable NewSeries
  | newData (data : List (Int × Int)) (h : (keysOf data).Nodup) : Reachable (NewSeriesData data)
  | set (s : Series) (x y : Int) : Reachable s → Reachable (s.Set x y)
  | remove (s : Series) (x : Int) : Reachable s → Reachable (s.Remove x)
  | compact (s : Series) : Reachable s → Reachable s.Compact
  | get (s : Series) (x : Int) : Reachable s → Reachable (s.Get x).2
  | xs (s : Series) : Reachable s → Reachable s.Xs.2
  | x0 (s : Series) : Reachable s → Reachable s.X0.2
  | floor (s : Series) (x : Int) : Reachable s → Reachable (s.Floor x).2
  | ceiling (s : Series) (x : Int) : Reachable s → Reachable (s.Ceiling x).2
  | copySrc (s : Series) : Reachable s → Reachable s.Copy.2
  | copyNew (s : Series) : Reachable s → Reachable s.Copy.1

instance (s : Series) : Decidable (Inv s) :=
  decidable_of_iff
    ((keysOf s.points).Nodup ∧
      (keysOf s.points).Perm (s.sorted ++ s.unsorted) ∧
      List.Pairwise (· < ·) s.sorted) Iff.rfl

/-! Basic lemmas on the association-list model of the Go map. -/

theorem lookup'_eq_none_iff {x : Int} {pts : List (Int × Int)} :
    lookup' x pts = none ↔ x ∉ keysOf pts := by
  induction pts with
  | nil => simp [lookup', keysOf]
  | cons p rest ih =>
      obtain ⟨k, v⟩ := p
      by_cases hx : x = k <;> simp [lookup', keysOf, hx, ih]

theorem lookup'_isSome_iff {x : Int} {pts : List (Int × Int)} :
    (lookup' x pts).isSome ↔ x ∈ keysOf pts := by
  rcases h : lookup' x pts with _ | v
  · simpa using lookup'_eq_none_iff.mp h
  · simp only [Option.isSome_some, true_iff]
    by_contra hx
    rw [lookup'_eq_none_iff.mpr hx] at h
    exact Option.noConfusion h

theorem lookup'_of_mem {x : Int} {pts : List (Int × Int)} (h : x ∈ keysOf pts) :
    lookup' x pts = some (lookupD x pts) := by
  have := lookup'_isSome_iff.mpr h
  rcases hl : lookup' x pts with _ | v
  · rw [hl] at this; exact absurd this (by simp)
  · simp [lookupD, hl]

theorem lookup'_mem_pair {x v : Int} {pts : List (Int × Int)} (h : lookup' x pts = some v) :
    (x, v) ∈ pts := by
  induction pts with
  | nil => simp [lookup'] at h
  | cons p rest ih =>
      obtain ⟨k, w⟩ := p
      by_cases hx : x = k
      · simp [lookup', hx] at h
        simp [hx, h]
      · simp [lookup', hx] at h
        simp [ih h]

theorem lookup'_eraseKey_self (x : Int) (pts : List (Int × Int)) :
    lookup' x (eraseKey x pts) = none := by
  rw [lookup'_eq_none_iff]
  intro hx
  simp only [keysOf, eraseKey, List.mem_map] at hx
  obtain ⟨p, hp, hpx⟩ := hx
  rw [List.mem_filter] at hp
  simp [hpx] at hp

theorem lookup'_eraseKey_ne {k x : Int} (hk : k ≠ x) (pts : List (Int × Int)) :
    lookup' k (eraseKey x pts) = lookup' k pts := by
  induction pts with
  | nil => rfl
  | cons p rest ih =>
      obtain ⟨k0, v0⟩ := p
      simp only [eraseKey] at ih ⊢
      rw [List.filter_cons]
      by_cases h0 : k0 = x
      · rw [if_neg (by simp [h0])]
        rw [ih]
        have hkk : ¬ k = k0 := by rw [h0]; exact hk
        simp only [lookup']
        rw [if_neg hkk]
      · rw [if_pos (by simp [h0])]
        simp only [lookup']
        by_cases hkk : k = k0
        · rw [if_pos hkk, if_pos hkk]
        · rw [if_neg hkk, if_neg hkk]
          exact ih

theorem keysOf_eraseKey (x : Int) (pts : List (Int × Int)) :
    keysOf (eraseKey x pts) = (keysOf pts).filter (fun k => k ≠ x) := by
  simp only [keysOf, eraseKey, List.filter_map]
  rfl

theorem keysOf_setVal (x y : Int) (pts : List (Int × Int)) :
    keysOf (setVal x y pts) = keysOf pts := by
  induction pts with
  | nil => rfl
  | cons p rest ih =>
      obtain ⟨k, v⟩ := p
      by_cases hk : k = x <;> simp [setVal, keysOf, hk] at ih ⊢ <;>
        simpa [setVal, keysOf] using ih

theorem lookup'_setVal_ne {k x : Int} (hk : k ≠ x) (y : Int) (pts : List (Int × Int)) :
    lookup' k (setVal x y pts) = lookup' k pts := by
  induction pts with
  | nil => rfl
  | cons p rest ih =>
      obtain ⟨k0, v0⟩ := p
      simp only [setVal] at ih ⊢
      rw [List.map_cons]
      by_cases h0 : k0 = x
      · rw [if_pos (by simpa using h0)]
        simp only [lookup']
        rw [if_neg hk, if_neg (by rw [h0]; exact hk)]
        exact ih
      · rw [if_neg (by simpa using h0)]
        simp only [lookup']
        by_cases hkk : k = k0
        · rw [if_pos hkk, if_pos hkk]
        · rw [if_neg hkk, if_neg hkk]
          exact ih

theorem lookup'_setVal_self {x : Int} {pts : List (Int × Int)} (h : x ∈ keysOf pts) (y : Int) :
    lookup' x (setVal x y pts) = some y := by
  induction pts with
  | nil => simp [keysOf] at h
  | cons p rest ih =>
      obtain ⟨k0, v0⟩ := p
      simp only [setVal] at ih ⊢
      rw [List.map_cons]
      by_cases h0 : k0 = x
      · rw [if_pos (by simpa using h0)]
        simp [lookup']
      · have hx : x ∈ keysOf rest := by
          simp only [keysOf, List.map_cons, List.mem_cons] at h
          rcases h with h | h
          · exact absurd h.symm h0
          · exact h
        rw [if_neg (by simpa using h0)]
        simp only [lookup']
        rw [if_neg (fun hc => h0 hc.symm)]
        exact ih hx

/-! Lemmas about the lazy merge and the canonical key order. -/

theorem sorted_lt_of_le_nodup {l : List Int} (hle : List.Sorted (· ≤ ·) l)
    (hnd : l.Nodup) : List.Sorted (· < ·) l := by
  have hand := List.pairwise_and_iff.mpr ⟨hle, hnd⟩
  exact hand.imp fun h => lt_of_le_of_ne h.1 h.2

theorem headD_eq_getD_zero (l : List Int) (d : Int) : l.headD d = l.getD 0 d := by
  cases l <;> rfl

theorem sort_points (s : Series) : s.sort.points = s.points := by
  unfold Series.sort
  split <;> rfl

theorem sort_unsorted (s : Series) : s.sort.unsorted = [] := by
  unfold Series.sort
  split
  · next h => simpa using h
  · rfl

theorem canonKeys_perm (pts : List (Int × Int)) : (canonKeys pts).Perm (keysOf pts) :=
  List.perm_insertionSort _ _

theorem canonKeys_sorted_le (pts : List (Int × Int)) :
    List.Sorted (· ≤ ·) (canonKeys pts) :=
  List.sorted_insertionSort _ _

theorem canonKeys_nodup {pts : List (Int × Int)} (h : (keysOf pts).Nodup) :
    (canonKeys pts).Nodup :=
  h.perm (canonKeys_perm pts).symm

theorem canonKeys_sorted_lt {pts : List (Int × Int)} (h : (keysOf pts).Nodup) :
    List.Sorted (· < ·) (canonKeys pts) :=
  sorted_lt_of_le_nodup (canonKeys_sorted_le pts) (canonKeys_nodup h)

theorem sort_inv {s : Series} (h : Inv s) : Inv s.sort := by
  obtain ⟨hnd, hperm, hsort⟩ := h
  unfold Series.sort
  split
  · exact ⟨hnd, hperm, hsort⟩
  · refine ⟨hnd, ?_, ?_⟩
    · simpa using hperm.trans (List.perm_insertionSort (· ≤ ·) _).symm
    · exact sorted_lt_of_le_nodup (List.sorted_insertionSort _ _)
        ((hnd.perm hperm).perm (List.perm_insertionSort _ _).symm)

theorem sort_sorted_perm_keys (s : Series) (h : Inv s) :
    s.sort.sorted.Perm (keysOf s.points) := by
  have h1 := (sort_inv h).2.1
  rw [sort_points, sort_unsorted, List.append_nil] at h1
  exact h1.symm

theorem sort_sorted_eq (s : Series) (h : Inv s) :
    s.sort.sorted = canonKeys s.points := by
  apply List.eq_of_perm_of_sorted (r := (· ≤ ·))
  · exact (sort_sorted_perm_keys s h).trans (canonKeys_perm s.points).symm
  · exact (sort_inv h).2.2.le_of_lt
  · exact canonKeys_sorted_le s.points

/-! Correctness of the binary search. -/

theorem findLoopF_spec (l : List Int) (x : Int) (hl : List.Sorted (· < ·) l) :
    ∀ fuel i j, j - i ≤ fuel → i < j → j ≤ l.length → l.getD i 0 ≤ x →
      (j = l.length ∨ x < l.getD j 0) →
      i ≤ findLoopF l x fuel i j ∧ findLoopF l x fuel i j < j ∧
        l.getD (findLoopF l x fuel i j) 0 ≤ x ∧
        (findLoopF l x fuel i j + 1 = l.length ∨
          x < l.getD (findLoopF l x fuel i j + 1) 0) := by
  intro fuel
  induction fuel with
  | zero =>
      intro i j hfuel hij
      omega
  | succ fuel ih =>
      intro i j hfuel hij hj hi hx
      simp only [findLoopF]
      split
      · next hgt =>
          split
          · next heq =>
              refine ⟨by omega, by omega, le_of_eq heq.symm, ?_⟩
              by_cases hl1 : (i + j + 1) / 2 + 1 = l.length
              · exact Or.inl hl1
              · right
                have hb1 : (i + j + 1) / 2 < l.length := by omega
                have hb2 : (i + j + 1) / 2 + 1 < l.length := by omega
                rw [List.getD_eq_getElem l 0 hb2, heq, List.getD_eq_getElem l 0 hb1]
                exact List.pairwise_iff_getElem.mp hl _ _ hb1 hb2 (by omega)
          · next hne =>
              split
              · next hlt =>
                  obtain ⟨h1, h2, h3, h4⟩ :=
                    ih ((i + j + 1) / 2) j (by omega) (by omega) hj (le_of_lt hlt) hx
                  exact ⟨by omega, h2, h3, h4⟩
              · next hnlt =>
                  have hxlt : x < l.getD ((i + j + 1) / 2) 0 :=
                    lt_of_le_of_ne (not_lt.mp hnlt) hne
                  obtain ⟨h1, h2, h3, h4⟩ :=
                    ih i ((i + j + 1) / 2) (by omega) (by omega) (by omega) hi (Or.inr hxlt)
                  exact ⟨h1, by omega, h3, h4⟩
      · next hle =>
          have hj1 : j = i + 1 := by omega
          exact ⟨le_refl i, by omega, hi, by rw [hj1] at hx; exact hx⟩

theorem findLoop_spec (l : List Int) (x : Int) (hl : List.Sorted (· < ·) l) :
    ∀ i j, i < j → j ≤ l.length → l.getD i 0 ≤ x →
      (j = l.length ∨ x < l.getD j 0) →
      i ≤ findLoop l x i j ∧ findLoop l x i j < j ∧
        l.getD (findLoop l x i j) 0 ≤ x ∧
        (findLoop l x i j + 1 = l.length ∨ x < l.getD (findLoop l x i j + 1) 0) := by
  intro i j hij hj hi hx
  exact findLoopF_spec l x hl (j - i) i j (le_refl _) hij hj hi hx

theorem find_spec (s : Series) (x : Int) (hs : List.Sorted (· < ·) s.sorted) :
    (s.find x = -1 ∧ ∀ k ∈ s.sorted, x < k) ∨
    (∃ r : Nat, s.find x = (r : Int) ∧ r < s.sorted.length ∧
      s.sorted.getD r 0 ≤ x ∧
      ∀ m : Nat, m < s.sorted.length → s.sorted.getD m 0 ≤ x → m ≤ r) := by
  unfold Series.find
  split
  · next h =>
      left
      refine ⟨rfl, fun k hk => ?_⟩
      rcases h with h | h
      · rw [List.isEmpty_iff] at h
        rw [h] at hk
        exact absurd hk (List.not_mem_nil k)
      · obtain ⟨m, hm, hkm⟩ := List.mem_iff_getElem.mp hk
        have h0 : s.sorted.headD 0 = s.sorted[0] := by
          rw [headD_eq_getD_zero, List.getD_eq_getElem s.sorted 0 (by omega)]
        have hle : s.sorted[0] ≤ s.sorted[m] := by
          rcases Nat.eq_or_lt_of_le (Nat.zero_le m) with h' | h'
          · simp [← h']
          · exact le_of_lt (List.pairwise_iff_getElem.mp hs _ _ (by omega) hm h')
        rw [h0] at h
        rw [← hkm]
        exact lt_of_lt_of_le h hle
  · next h =>
      right
      push_neg at h
      obtain ⟨hne, hhead⟩ := h
      have hne' : s.sorted ≠ [] := by
        intro hc
        exact hne (by rw [hc]; rfl)
      have hlen : 0 < s.sorted.length := List.length_pos.mpr hne'
      have hi : s.sorted.getD 0 0 ≤ x := by rw [← headD_eq_getD_zero]; exact hhead
      obtain ⟨h1, h2, h3, h4⟩ :=
        findLoop_spec s.sorted x hs 0 s.sorted.length hlen (le_refl _) hi (Or.inl rfl)
      refine ⟨findLoop s.sorted x 0 s.sorted.length, rfl, h2, h3, fun m hm hmx => ?_⟩
      by_contra hc
      push_neg at hc
      have hr1m : findLoop s.sorted x 0 s.sorted.length + 1 ≤ m := hc
      rcases h4 with h4 | h4
      · omega
      · have : s.sorted.getD (findLoop s.sorted x 0 s.sorted.length + 1) 0 ≤
            s.sorted.getD m 0 := by
          rcases Nat.eq_or_lt_of_le hr1m with h' | h'
          · rw [h']
          · have hb : findLoop s.sorted x 0 s.sorted.length + 1 < s.sorted.length := by omega
            rw [List.getD_eq_getElem s.sorted 0 hb, List.getD_eq_getElem s.sorted 0 hm]
            exact le_of_lt (List.pairwise_iff_getElem.mp hs _ _ hb hm h')
        have hxx := lt_of_lt_of_le h4 this
        have hmm := lt_of_le_of_lt hmx hxx
        exact absurd hmm (lt_irrefl _)

theorem sorted_getD_le {l : List Int} (hl : List.Sorted (· < ·) l) {m r : Nat}
    (hmr : m ≤ r) (hr : r < l.length) : l.getD m 0 ≤ l.getD r 0 := by
  rcases Nat.eq_or_lt_of_le hmr with h | h
  · rw [h]
  · rw [List.getD_eq_getElem l 0 (by omega), List.getD_eq_getElem l 0 hr]
    exact le_of_lt (List.pairwise_iff_getElem.mp hl _ _ (by omega) hr h)

theorem find_exact (s : Series) (x : Int) (hs : List.Sorted (· < ·) s.sorted)
    (hx : x ∈ s.sorted) :
    ∃ r : Nat, s.find x = (r : Int) ∧ r < s.sorted.length ∧ s.sorted.getD r 0 = x := by
  rcases find_spec s x hs with ⟨_, hall⟩ | ⟨r, h1, h2, h3, h4⟩
  · exact absurd (hall x hx) (lt_irrefl x)
  · refine ⟨r, h1, h2, ?_⟩
    obtain ⟨m, hm, hgm⟩ := List.mem_iff_getElem.mp hx
    have hmd : s.sorted.getD m 0 = x := by
      rw [List.getD_eq_getElem _ _ hm]
      exact hgm
    have hmr : m ≤ r := h4 m hm (le_of_eq hmd)
    have hle2 : s.sorted.getD m 0 ≤ s.sorted.getD r 0 := sorted_getD_le hs hmr h2
    rw [hmd] at hle2
    exact le_antisymm h3 hle2

/-! The denotation: the step function a stored-point map stands for. -/

theorem stepAcc_of_gt {x : Int} {pl : List (Int × Int)} (h : ∀ p ∈ pl, x < p.1)
    (acc : Int) : stepAcc x acc pl = acc := by
  cases pl with
  | nil => rfl
  | cons p rest =>
      obtain ⟨k, v⟩ := p
      have hk : x < k := h (k, v) (List.mem_cons_self _ _)
      simp only [stepAcc]
      rw [if_neg (not_le.mpr hk)]

theorem getD_cons_succ' (p : Int × Int) (rest : List (Int × Int)) (n : Nat) :
    (p :: rest).getD (n + 1) (0, 0) = rest.getD n (0, 0) := by
  rfl

theorem stepAcc_getD {x : Int} :
    ∀ (pl : List (Int × Int)) (acc : Int) (r : Nat),
      List.Pairwise (fun p q : Int × Int => p.1 < q.1) pl →
      r < pl.length → (pl.getD r (0, 0)).1 ≤ x →
      (∀ m : Nat, m < pl.length → (pl.getD m (0, 0)).1 ≤ x → m ≤ r) →
      stepAcc x acc pl = (pl.getD r (0, 0)).2 := by
  intro pl
  induction pl with
  | nil =>
      intro acc r _ hr
      exact absurd hr (by simp)
  | cons p rest ih =>
      intro acc r hpw hr hle hmax
      obtain ⟨k, v⟩ := p
      cases r with
      | zero =>
          have hk : k ≤ x := hle
          simp only [stepAcc]
          rw [if_pos hk]
          have hrest : ∀ q ∈ rest, x < q.1 := by
            intro q hq
            by_contra hc
            push_neg at hc
            obtain ⟨m, hm, hqm⟩ := List.mem_iff_getElem.mp hq
            have hgd : ((k, v) :: rest).getD (m + 1) (0, 0) = q := by
              rw [getD_cons_succ', List.getD_eq_getElem _ _ hm]
              exact hqm
            have := hmax (m + 1) (by simp; omega) (by rw [hgd]; exact hc)
            omega
          exact stepAcc_of_gt hrest v
      | succ r' =>
          have hpw' : List.Pairwise (fun p q : Int × Int => p.1 < q.1) rest := hpw.of_cons
          have hr' : r' < rest.length := by
            simp only [List.length_cons] at hr
            omega
          have hle' : (rest.getD r' (0, 0)).1 ≤ x := by
            rw [← getD_cons_succ' (k, v)]
            exact hle
          have hk : k ≤ x := by
            have hkr : k < (rest.getD r' (0, 0)).1 := by
              have hmem : rest.getD r' (0, 0) ∈ rest := by
                rw [List.getD_eq_getElem _ _ hr']
                exact List.getElem_mem hr'
              exact (List.pairwise_cons.mp hpw).1 _ hmem
            exact le_of_lt (lt_of_lt_of_le hkr hle')
          simp only [stepAcc]
          rw [if_pos hk, getD_cons_succ']
          refine ih v r' hpw' hr' hle' fun m hm hmx => ?_
          have := hmax (m + 1) (by simp; omega) (by rw [getD_cons_succ']; exact hmx)
          omega

theorem keysOf_canonPairs (pts : List (Int × Int)) :
    keysOf (canonPairs pts) = canonKeys pts := by
  unfold canonPairs keysOf
  rw [List.map_map]
  simp [Function.comp_def]

theorem canonPairs_pairwise {pts : List (Int × Int)} (h : (keysOf pts).Nodup) :
    List.Pairwise (fun p q : Int × Int => p.1 < q.1) (canonPairs pts) := by
  unfold canonPairs
  rw [List.pairwise_map]
  exact canonKeys_sorted_lt h

theorem canonPairs_getD {pts : List (Int × Int)} {r : Nat}
    (hr : r < (canonKeys pts).length) :
    (canonPairs pts).getD r (0, 0) =
      ((canonKeys pts).getD r 0, lookupD ((canonKeys pts).getD r 0) pts) := by
  unfold canonPairs
  rw [List.getD_eq_getElem _ _ (by simpa using hr), List.getElem_map,
    List.getD_eq_getElem _ _ hr]

theorem denote_of_all_gt {pts : List (Int × Int)} {x : Int}
    (h : ∀ k ∈ keysOf pts, x < k) : denote pts x = 0 := by
  unfold denote
  apply stepAcc_of_gt
  intro p hp
  unfold canonPairs at hp
  obtain ⟨k, hk, hkp⟩ := List.mem_map.mp hp
  have : k ∈ keysOf pts := (canonKeys_perm pts).mem_iff.mp hk
  rw [← hkp]
  exact h k this

theorem denote_of_greatest {pts : List (Int × Int)} (hnd : (keysOf pts).Nodup)
    {x x0 : Int} (hmem : x0 ∈ keysOf pts) (hle : x0 ≤ x)
    (hmax : ∀ k ∈ keysOf pts, k ≤ x → k ≤ x0) :
    denote pts x = lookupD x0 pts := by
  have hck : x0 ∈ canonKeys pts := (canonKeys_perm pts).mem_iff.mpr hmem
  obtain ⟨r, hr, hgr⟩ := List.mem_iff_getElem.mp hck
  have hgrD : (canonKeys pts).getD r 0 = x0 := by
    rw [List.getD_eq_getElem _ _ hr]
    exact hgr
  have hcl : (canonPairs pts).length = (canonKeys pts).length := by
    unfold canonPairs
    rw [List.length_map]
  unfold denote
  rw [stepAcc_getD (canonPairs pts) 0 r (canonPairs_pairwise hnd) (by omega)
      (by rw [canonPairs_getD hr, hgrD]; exact hle) ?_]
  · rw [canonPairs_getD hr, hgrD]
  · intro m hm hmx
    have hm' : m < (canonKeys pts).length := by omega
    rw [canonPairs_getD hm'] at hmx
    have hkm : (canonKeys pts).getD m 0 ∈ keysOf pts := by
      apply (canonKeys_perm pts).mem_iff.mp
      rw [List.getD_eq_getElem _ _ hm']
      exact List.getElem_mem hm'
    have hkx0 : (canonKeys pts).getD m 0 ≤ x0 := hmax _ hkm hmx
    by_contra hc
    push_neg at hc
    have : (canonKeys pts).getD r 0 < (canonKeys pts).getD m 0 := by
      rw [List.getD_eq_getElem _ _ hr, List.getD_eq_getElem _ _ hm']
      exact List.pairwise_iff_getElem.mp (canonKeys_sorted_lt hnd) _ _ hr hm' hc
    rw [hgrD] at this
    exact absurd (lt_of_lt_of_le this hkx0) (lt_irrefl x0)

theorem get_points (s : Series) (x : Int) : (s.Get x).2.points = s.points := by
  unfold Series.Get
  rcases lookup' x s.points with _ | y
  · simp only []
    split <;> exact sort_points s
  · rfl

theorem get_inv {s : Series} (h : Inv s) (x : Int) : Inv (s.Get x).2 := by
  unfold Series.Get
  rcases lookup' x s.points with _ | y
  · simp only []
    split <;> exact sort_inv h
  · exact h

theorem get_eq_denote {s : Series} (h : Inv s) (x : Int) :
    (s.Get x).1 = denote s.points x := by
  obtain ⟨hnd, hperm, hsort⟩ := h
  unfold Series.Get
  rcases hl : lookup' x s.points with _ | y
  · simp only []
    have hs1 : List.Sorted (· < ·) s.sort.sorted := (sort_inv ⟨hnd, hperm, hsort⟩).2.2
    have hpk := sort_sorted_perm_keys s ⟨hnd, hperm, hsort⟩
    rcases find_spec s.sort x hs1 with ⟨hf, hall⟩ | ⟨r, hf, hr, hler, hmax⟩
    · rw [hf]
      rw [if_pos (by norm_num)]
      refine (denote_of_all_gt fun k hk => ?_).symm
      exact hall k (hpk.mem_iff.mpr hk)
    · rw [hf]
      rw [if_neg (by omega)]
      have htn : ((r : Int)).toNat = r := Int.toNat_natCast r
      rw [htn]
      have hk0 : s.sort.sorted.getD r 0 ∈ keysOf s.points := by
        apply hpk.mem_iff.mp
        rw [List.getD_eq_getElem _ _ hr]
        exact List.getElem_mem hr
      rw [sort_points]
      refine (denote_of_greatest hnd hk0 hler fun k hk hkx => ?_).symm.trans ?_
      · obtain ⟨m, hm, hgm⟩ := List.mem_iff_getElem.mp (hpk.mem_iff.mpr hk)
        have hmd : s.sort.sorted.getD m 0 = k := by
          rw [List.getD_eq_getElem _ _ hm]
          exact hgm
        have := hmax m hm (by rw [hmd]; exact hkx)
        rw [← hmd]
        exact sorted_getD_le hs1 this hr
      · rfl
  · have hx : x ∈ keysOf s.points := by
      have : (lookup' x s.points).isSome := by rw [hl]; rfl
      exact lookup'_isSome_iff.mp this
    have hd := denote_of_greatest hnd hx (le_refl x) fun k _ hk => hk
    rw [hd]
    unfold lookupD
    rw [hl]
    rfl

/-! Invariant preservation, operation by operation. -/

theorem inv_NewSeries : Inv NewSeries := by
  refine ⟨?_, ?_, ?_⟩ <;> simp [NewSeries, keysOf]

theorem inv_NewSeriesData {data : List (Int × Int)} (h : (keysOf data).Nodup) :
    Inv (NewSeriesData data) := by
  refine ⟨h, ?_, ?_⟩ <;> simp [NewSeriesData]

theorem set_inv {s : Series} (h : Inv s) (x y : Int) : Inv (s.Set x y) := by
  obtain ⟨hnd, hperm, hsort⟩ := h
  unfold Series.Set
  rcases hl : lookup' x s.points with _ | y0
  · have hx : x ∉ keysOf s.points := lookup'_eq_none_iff.mp hl
    refine ⟨?_, ?_, hsort⟩
    · show (keysOf ((x, y) :: s.points)).Nodup
      have h1 : keysOf ((x, y) :: s.points) = x :: keysOf s.points := rfl
      rw [h1, List.nodup_cons]
      exact ⟨hx, hnd⟩
    · show (keysOf ((x, y) :: s.points)).Perm (s.sorted ++ (s.unsorted ++ [x]))
      have h1 : keysOf ((x, y) :: s.points) = x :: keysOf s.points := rfl
      rw [h1, ← List.append_assoc]
      exact (hperm.cons x).trans (List.perm_append_singleton x _).symm
  · refine ⟨?_, ?_, hsort⟩
    · show (keysOf (setVal x y s.points)).Nodup
      rw [keysOf_setVal]
      exact hnd
    · show (keysOf (setVal x y s.points)).Perm _
      rw [keysOf_setVal]
      exact hperm

theorem filter_ne_eq_eraseIdx {l : List Int} (hnd : l.Nodup) {r : Nat} (hr : r < l.length)
    {x : Int} (hx : l.getD r 0 = x) :
    l.filter (fun k => k ≠ x) = l.eraseIdx r := by
  have hgx : l[r] = x := by
    rw [← hx, List.getD_eq_getElem _ _ hr]
  have hdecomp : l = l.take r ++ x :: l.drop (r + 1) := by
    conv_lhs => rw [← List.take_append_drop r l]
    rw [← List.getElem_cons_drop l r hr, hgx]
  have hnodup2 : (x :: (l.take r ++ l.drop (r + 1))).Nodup := by
    rw [← List.nodup_middle, ← hdecomp]
    exact hnd
  have hxnot : x ∉ l.take r ++ l.drop (r + 1) := (List.nodup_cons.mp hnodup2).1
  have h1 : l.filter (fun k => k ≠ x) = l.take r ++ l.drop (r + 1) := by
    conv_lhs => rw [hdecomp]
    rw [List.filter_append, List.filter_cons]
    rw [if_neg (by simp)]
    rw [List.filter_eq_self.mpr, List.filter_eq_self.mpr]
    · intro a ha
      have : a ≠ x := by
        intro hc
        exact hxnot (by rw [← hc] at hxnot ⊢; exact List.mem_append_right _ ha)
      simpa using this
    · intro a ha
      have : a ≠ x := by
        intro hc
        rw [hc] at ha
        exact hxnot (List.mem_append_left _ ha)
      simpa using this
  rw [h1, List.eraseIdx_eq_take_drop_succ]

theorem remove_inv {s : Series} (h : Inv s) (x : Int) : Inv (s.Remove x) := by
  unfold Series.Remove
  rcases hl : lookup' x s.points with _ | y
  · exact h
  · simp only []
    have hx : x ∈ keysOf s.points := lookup'_isSome_iff.mp (by rw [hl]; rfl)
    have h1 := sort_inv h
    have hpk := sort_sorted_perm_keys s h
    have hs1 : List.Sorted (· < ·) s.sort.sorted := h1.2.2
    have hnd1 : s.sort.sorted.Nodup := hs1.imp ne_of_lt
    have hxs : x ∈ s.sort.sorted := hpk.mem_iff.mpr hx
    obtain ⟨r, hf, hr, hgr⟩ := find_exact s.sort x hs1 hxs
    rw [hf, Int.toNat_natCast]
    refine ⟨?_, ?_, ?_⟩
    · show (keysOf (eraseKey x s.sort.points)).Nodup
      rw [sort_points, keysOf_eraseKey]
      exact h.1.filter _
    · show (keysOf (eraseKey x s.sort.points)).Perm (s.sort.sorted.eraseIdx r ++ s.sort.unsorted)
      rw [sort_points, keysOf_eraseKey, sort_unsorted, List.append_nil,
        ← filter_ne_eq_eraseIdx hnd1 hr hgr]
      exact (hpk.filter _).symm
    · exact List.Pairwise.sublist (List.eraseIdx_sublist s.sort.sorted r) hs1

/-! Lemmas about the compaction loop. -/

theorem keepSpec_keys_sublist (y : Int) (pl : List (Int × Int)) :
    (keysOf (keepSpec y pl)).Sublist (keysOf pl) := by
  induction pl generalizing y with
  | nil => exact List.Sublist.refl _
  | cons p rest ih =>
      obtain ⟨k, v⟩ := p
      simp only [keepSpec]
      split
      · exact (ih y).trans (List.sublist_cons_self _ _)
      · exact List.Sublist.cons₂ k (ih v)

theorem keysOf_graph_map (g : Int → Int) (xs : List Int) :
    keysOf (xs.map fun k => (k, g k)) = xs := by
  unfold keysOf
  rw [List.map_map]
  simp [Function.comp_def]

theorem keepSpec_graph (g : Int → Int) :
    ∀ (y : Int) (xs : List Int),
      keepSpec y (xs.map fun k => (k, g k)) =
        (keysOf (keepSpec y (xs.map fun k => (k, g k)))).map fun k => (k, g k) := by
  intro y xs
  induction xs generalizing y with
  | nil => rfl
  | cons x rest ih =>
      rw [List.map_cons]
      simp only [keepSpec]
      split
      · exact ih y
      · have hk : keysOf ((x, g x) :: keepSpec (g x) (rest.map fun k => (k, g k))) =
            x :: keysOf (keepSpec (g x) (rest.map fun k => (k, g k))) := rfl
        rw [hk, List.map_cons, ← ih (g x)]

theorem filter_mem_of_sublist :
    ∀ {l' l : List Int}, l'.Sublist l → l.Nodup →
      l.filter (fun k => decide (k ∈ l')) = l' := by
  intro l' l hsub
  induction hsub with
  | slnil => intro _; rfl
  | cons a hsub ih =>
      intro hnd
      rename_i l1 l2
      rw [List.filter_cons]
      have ha : a ∉ l1 := by
        intro hc
        exact (List.nodup_cons.mp hnd).1 (hsub.subset hc)
      rw [if_neg (by simpa using ha)]
      exact ih (List.nodup_cons.mp hnd).2
  | cons₂ a hsub ih =>
      intro hnd
      rename_i l1 l2
      rw [List.filter_cons]
      rw [if_pos (by simp)]
      congr 1
      have ha2 : a ∉ l2 := (List.nodup_cons.mp hnd).1
      have h1 : l2.filter (fun k => decide (k ∈ a :: l1)) =
          l2.filter (fun k => decide (k ∈ l1)) := by
        apply List.filter_congr
        intro b hb
        have hba : ¬ b = a := fun hc => ha2 (hc ▸ hb)
        simp [hba]
      rw [h1]
      exact ih (List.nodup_cons.mp hnd).2

theorem compactSpec_short {pl : List (Int × Int)} (h : pl.length ≤ 1) :
    compactSpec pl = pl := by
  match pl with
  | [] => rfl
  | [(k, v)] => rfl
  | (k, v) :: (k', v') :: rest => simp at h

theorem compactLoop_spec :
    ∀ (xs : List Int) (pts : List (Int × Int)) (lastY : Int), xs.Nodup →
      (compactLoop pts lastY xs).2 =
        keysOf (keepSpec lastY (xs.map fun k => (k, lookupD k pts))) ∧
      keysOf (compactLoop pts lastY xs).1 =
        (keysOf pts).filter
          (fun k => !(decide (k ∈ xs)) || decide (k ∈ (compactLoop pts lastY xs).2)) ∧
      (∀ k, (k ∉ xs ∨ k ∈ (compactLoop pts lastY xs).2) →
        lookup' k (compactLoop pts lastY xs).1 = lookup' k pts) := by
  intro xs
  induction xs with
  | nil =>
      intro pts lastY _
      refine ⟨rfl, ?_, fun k _ => rfl⟩
      show keysOf pts = (keysOf pts).filter _
      symm
      apply List.filter_eq_self.mpr
      intro a _
      simp [compactLoop]
  | cons x rest ih =>
      intro pts lastY hnd
      have hxrest : x ∉ rest := (List.nodup_cons.mp hnd).1
      have hndr : rest.Nodup := (List.nodup_cons.mp hnd).2
      by_cases hxy : lookupD x pts = lastY
      · -- the point at x is redundant and deleted
        have hred : compactLoop pts lastY (x :: rest) =
            compactLoop (eraseKey x pts) lastY rest := by
          simp only [compactLoop]
          rw [if_pos hxy]
        obtain ⟨ha, hb, hc⟩ := ih (eraseKey x pts) lastY hndr
        have hmapeq : (rest.map fun k => (k, lookupD k (eraseKey x pts))) =
            rest.map fun k => (k, lookupD k pts) := by
          apply List.map_congr_left
          intro k hk
          have hkx : k ≠ x := fun hc' => hxrest (hc' ▸ hk)
          rw [show lookupD k (eraseKey x pts) = lookupD k pts from by
            unfold lookupD; rw [lookup'_eraseKey_ne hkx]]
        have hsub2 : (compactLoop (eraseKey x pts) lastY rest).2.Sublist rest := by
          rw [ha, hmapeq]
          have := keepSpec_keys_sublist lastY (rest.map fun k => (k, lookupD k pts))
          rwa [keysOf_graph_map] at this
        refine ⟨?_, ?_, ?_⟩
        · rw [hred, ha, hmapeq, List.map_cons]
          simp only [keepSpec]
          rw [if_pos hxy]
        · rw [hred, hb, keysOf_eraseKey, List.filter_filter]
          apply List.filter_congr
          intro k _
          by_cases hkx : k = x
          · subst hkx
            have h2 : k ∉ (compactLoop (eraseKey k pts) lastY rest).2 :=
              fun hc' => hxrest (hsub2.subset hc')
            simp [hxrest, h2]
          · by_cases h3 : k ∈ rest <;> by_cases h4 : k ∈ (compactLoop (eraseKey x pts) lastY rest).2 <;>
              simp [hkx, h3, h4]
        · intro k hk
          rw [hred]
          have hkx : k ≠ x := by
            rcases hk with hk | hk
            · exact fun hc' => hk (hc' ▸ List.mem_cons_self x rest)
            · rw [hred] at hk
              exact fun hc' => hxrest (hc' ▸ hsub2.subset hk)
          have hk' : k ∉ rest ∨ k ∈ (compactLoop (eraseKey x pts) lastY rest).2 := by
            rcases hk with hk | hk
            · exact Or.inl fun hc' => hk (List.mem_cons_of_mem x hc')
            · rw [hred] at hk
              exact Or.inr hk
          rw [hc k hk', lookup'_eraseKey_ne hkx]
      · -- the point at x is retained
        have hret : compactLoop pts lastY (x :: rest) =
            ((compactLoop pts (lookupD x pts) rest).1,
              x :: (compactLoop pts (lookupD x pts) rest).2) := by
          simp only [compactLoop]
          rw [if_neg hxy]
        obtain ⟨ha, hb, hc⟩ := ih pts (lookupD x pts) hndr
        have hsub2 : (compactLoop pts (lookupD x pts) rest).2.Sublist rest := by
          rw [ha]
          have := keepSpec_keys_sublist (lookupD x pts) (rest.map fun k => (k, lookupD k pts))
          rwa [keysOf_graph_map] at this
        refine ⟨?_, ?_, ?_⟩
        · rw [hret, List.map_cons]
          simp only [keepSpec]
          rw [if_neg hxy]
          show x :: _ = keysOf ((x, lookupD x pts) :: _)
          rw [show ∀ (p : Int × Int) (l : List (Int × Int)), keysOf (p :: l) = p.1 :: keysOf l
            from fun p l => rfl]
          rw [ha]
        · rw [hret, hb]
          apply List.filter_congr
          intro k _
          by_cases hkx : k = x
          · subst hkx
            simp [hxrest]
          · by_cases h3 : k ∈ rest <;> by_cases h4 : k ∈ (compactLoop pts (lookupD k pts) rest).2 <;>
              simp [hkx, h3, h4]
        · intro k hk
          rw [hret]
          have hk' : k ∉ rest ∨ k ∈ (compactLoop pts (lookupD x pts) rest).2 := by
            rcases hk with hk | hk
            · exact Or.inl fun hc' => hk (List.mem_cons_of_mem x hc')
            · rw [hret] at hk
              rcases List.mem_cons.mp hk with hk | hk
              · subst hk
                exact Or.inl hxrest
              · exact Or.inr hk
          exact hc k hk'

theorem length_canonPairs (pts : List (Int × Int)) :
    (canonPairs pts).length = pts.length := by
  unfold canonPairs
  rw [List.length_map, (canonKeys_perm pts).length_eq]
  unfold keysOf
  rw [List.length_map]

theorem compact_main {s : Series} (h : Inv s) :
    Inv s.Compact ∧ canonPairs s.Compact.points = compactSpec (canonPairs s.points) := by
  unfold Series.Compact
  by_cases hlen : s.points.length < 2
  · rw [if_pos hlen]
    have hshort : (canonPairs s.points).length ≤ 1 := by
      rw [length_canonPairs]
      omega
    exact ⟨h, (compactSpec_short hshort).symm⟩
  · rw [if_neg hlen]
    dsimp only
    have h1 := sort_inv h
    have hpk := sort_sorted_perm_keys s h
    have hs1 : List.Sorted (· < ·) s.sort.sorted := h1.2.2
    cases hss : s.sort.sorted with
    | nil =>
        exfalso
        have := hpk.length_eq
        rw [hss] at this
        simp only [List.length_nil] at this
        unfold keysOf at this
        rw [List.length_map] at this
        omega
    | cons x0 xs =>
        rw [hss] at hs1
        have hnd0 : (x0 :: xs).Nodup := hs1.imp ne_of_lt
        have hx0xs : x0 ∉ xs := (List.nodup_cons.mp hnd0).1
        have hndxs : xs.Nodup := (List.nodup_cons.mp hnd0).2
        have hkperm : (keysOf s.points).Perm (x0 :: xs) := by
          rw [← hss]
          exact hpk.symm
        dsimp only
        rw [sort_points, sort_unsorted]
        obtain ⟨ha, hb, hc⟩ :=
          compactLoop_spec xs s.points (lookupD x0 s.points) hndxs
        have hsub2 : (compactLoop s.points (lookupD x0 s.points) xs).2.Sublist xs := by
          rw [ha]
          have := keepSpec_keys_sublist (lookupD x0 s.points)
            (xs.map fun k => (k, lookupD k s.points))
          rwa [keysOf_graph_map] at this
        have hsorted' : List.Sorted (· < ·)
            (x0 :: (compactLoop s.points (lookupD x0 s.points) xs).2) :=
          List.Pairwise.sublist (List.Sublist.cons₂ x0 hsub2) hs1
        have hkeys1 : keysOf (compactLoop s.points (lookupD x0 s.points) xs).1 =
            (keysOf s.points).filter
              (fun k => !(decide (k ∈ xs)) ||
                decide (k ∈ (compactLoop s.points (lookupD x0 s.points) xs).2)) := hb
        have hperm' : (keysOf (compactLoop s.points (lookupD x0 s.points) xs).1).Perm
            (x0 :: (compactLoop s.points (lookupD x0 s.points) xs).2) := by
          rw [hkeys1]
          refine (hkperm.filter _).trans ?_
          rw [List.filter_cons]
          rw [if_pos (by simp [hx0xs])]
          have hfx : xs.filter
              (fun k => !(decide (k ∈ xs)) ||
                decide (k ∈ (compactLoop s.points (lookupD x0 s.points) xs).2)) =
              xs.filter
                (fun k => decide (k ∈ (compactLoop s.points (lookupD x0 s.points) xs).2)) := by
            apply List.filter_congr
            intro k hk
            simp [hk]
          rw [hfx, filter_mem_of_sublist hsub2 hndxs]
      -- keys of the compacted map are a permutation of the new sorted slice
        have hnd1 : (keysOf (compactLoop s.points (lookupD x0 s.points) xs).1).Nodup := by
          rw [hkeys1]
          exact h.1.filter _
        refine ⟨⟨hnd1, by simpa using hperm', hsorted'⟩, ?_⟩
      -- now the canonical-pairs equation
        have hck1 : canonKeys (compactLoop s.points (lookupD x0 s.points) xs).1 =
            x0 :: (compactLoop s.points (lookupD x0 s.points) xs).2 := by
          apply List.eq_of_perm_of_sorted (r := (· ≤ ·))
          · exact (canonKeys_perm _).trans hperm'
          · exact canonKeys_sorted_le _
          · exact hsorted'.le_of_lt
        have hckpts : canonKeys s.points = x0 :: xs := by
          rw [← hss]
          exact (sort_sorted_eq s h).symm
        show canonPairs (compactLoop s.points (lookupD x0 s.points) xs).1 = _
        unfold canonPairs
        rw [hck1, hckpts, List.map_cons, List.map_cons]
        simp only [compactSpec]
        have hhead : lookupD x0 (compactLoop s.points (lookupD x0 s.points) xs).1 =
            lookupD x0 s.points :=
          congrArg (fun o => o.getD 0) (hc x0 (Or.inl hx0xs))
        have htail : (compactLoop s.points (lookupD x0 s.points) xs).2.map
              (fun k => (k, lookupD k (compactLoop s.points (lookupD x0 s.points) xs).1)) =
            (compactLoop s.points (lookupD x0 s.points) xs).2.map
              (fun k => (k, lookupD k s.points)) := by
          apply List.map_congr_left
          intro k hk
          have hkk : lookupD k (compactLoop s.points (lookupD x0 s.points) xs).1 =
              lookupD k s.points :=
            congrArg (fun o => o.getD 0) (hc k (Or.inr hk))
          rw [hkk]
        rw [hhead, htail, keepSpec_graph (fun k => lookupD k s.points), ← ha]

theorem compact_inv {s : Series} (h : Inv s) : Inv s.Compact :=
  (compact_main h).1

theorem compact_canonPairs {s : Series} (h : Inv s) :
    canonPairs s.Compact.points = compactSpec (canonPairs s.points) :=
  (compact_main h).2

/-! Compaction does not change the denoted step function. -/

theorem stepAcc_keepSpec {x : Int} :
    ∀ (pl : List (Int × Int)) (acc : Int),
      List.Pairwise (fun p q : Int × Int => p.1 < q.1) pl →
      stepAcc x acc (keepSpec acc pl) = stepAcc x acc pl := by
  intro pl
  induction pl with
  | nil => intro acc _; rfl
  | cons p rest ih =>
      intro acc hpw
      obtain ⟨k, v⟩ := p
      simp only [keepSpec]
      by_cases hv : v = acc
      · rw [if_pos hv, ih acc hpw.of_cons]
        simp only [stepAcc]
        by_cases hk : k ≤ x
        · rw [if_pos hk, hv]
        · rw [if_neg hk]
          apply stepAcc_of_gt
          intro q hq
          have hkq := (List.pairwise_cons.mp hpw).1 q hq
          push_neg at hk
          exact lt_trans hk hkq
      · rw [if_neg hv]
        simp only [stepAcc]
        by_cases hk : k ≤ x
        · rw [if_pos hk, if_pos hk]
          exact ih v hpw.of_cons
        · rw [if_neg hk, if_neg hk]

theorem stepAcc_compactSpec {x : Int} {pl : List (Int × Int)}
    (hpw : List.Pairwise (fun p q : Int × Int => p.1 < q.1) pl) :
    stepAcc x 0 (compactSpec pl) = stepAcc x 0 pl := by
  cases pl with
  | nil => rfl
  | cons p rest =>
      obtain ⟨k, v⟩ := p
      simp only [compactSpec, stepAcc]
      by_cases hk : k ≤ x
      · rw [if_pos hk, if_pos hk]
        exact stepAcc_keepSpec rest v hpw.of_cons
      · rw [if_neg hk, if_neg hk]

theorem denote_compact {s : Series} (h : Inv s) (x : Int) :
    denote s.Compact.points x = denote s.points x := by
  unfold denote
  rw [compact_canonPairs h]
  exact stepAcc_compactSpec (canonPairs_pairwise h.1)

theorem keepSpec_idem :
    ∀ (pl : List (Int × Int)) (y : Int), keepSpec y (keepSpec y pl) = keepSpec y pl := by
  intro pl
  induction pl with
  | nil => intro y; rfl
  | cons p rest ih =>
      intro y
      obtain ⟨k, v⟩ := p
      simp only [keepSpec]
      by_cases hv : v = y
      · rw [if_pos hv]
        exact ih y
      · rw [if_neg hv]
        simp only [keepSpec]
        rw [if_neg hv]
        congr 1
        exact ih v

theorem compactSpec_idem (pl : List (Int × Int)) :
    compactSpec (compactSpec pl) = compactSpec pl := by
  cases pl with
  | nil => rfl
  | cons p rest =>
      obtain ⟨k, v⟩ := p
      simp only [compactSpec]
      rw [keepSpec_idem]

/-! Invariant preservation for the read operations that merge. -/

theorem xs_inv {s : Series} (h : Inv s) : Inv s.Xs.2 := by
  unfold Series.Xs
  exact sort_inv h

theorem x0_inv {s : Series} (h : Inv s) : Inv s.X0.2 := by
  unfold Series.X0
  exact sort_inv h

theorem floor_inv {s : Series} (h : Inv s) (x : Int) : Inv (s.Floor x).2 := by
  unfold Series.Floor
  split
  · exact h
  · dsimp only
    split <;> exact sort_inv h

theorem ceiling_inv {s : Series} (h : Inv s) (x : Int) : Inv (s.Ceiling x).2 := by
  unfold Series.Ceiling
  split
  · exact h
  · split
    · exact h
    · dsimp only
      split <;> exact sort_inv h

theorem copy_src_inv {s : Series} (h : Inv s) : Inv s.Copy.2 := by
  unfold Series.Copy
  exact sort_inv h

theorem copy_new_inv {s : Series} (h : Inv s) : Inv s.Copy.1 := by
  unfold Series.Copy
  dsimp only
  have h1 := sort_inv h
  refine ⟨h1.1, ?_, h1.2.2⟩
  have h2 := h1.2.1
  rw [sort_unsorted, List.append_nil] at h2
  simpa using h2

/-! The Combine loops: the mutated input states keep their maps, and every
accumulated key holds the reduced value of the inputs' denotations. -/

theorem xs_val {s : Series} (h : Inv s) : s.Xs.1 = canonKeys s.points := by
  unfold Series.Xs
  exact sort_sorted_eq s h

theorem getValues_spec (k : Int) {st orig : List Series}
    (hf : List.Forall₂ (fun t s0 => t.points = s0.points ∧ Inv t) st orig) :
    (getValues k st).1 = orig.map (fun s0 => denote s0.points k) ∧
    List.Forall₂ (fun t s0 => t.points = s0.points ∧ Inv t) (getValues k st).2 orig := by
  induction hf with
  | nil => exact ⟨rfl, List.Forall₂.nil⟩
  | cons h hf ih =>
      rename_i t s0 st' orig'
      obtain ⟨hpt, hinv⟩ := h
      simp only [getValues]
      refine ⟨?_, ?_⟩
      · rw [List.map_cons]
        have hv : (t.Get k).1 = denote s0.points k := by
          rw [get_eq_denote hinv k, hpt]
        rw [hv, ih.1]
      · exact List.Forall₂.cons ⟨by rw [get_points, hpt], get_inv hinv k⟩ ih.2

theorem combineInner_spec (f : List Int → Int) (orig : List Series) :
    ∀ (ks : List Int) (pts : List (Int × Int)) (uns : List Int) (st : List Series),
      (keysOf pts).Nodup →
      (∀ k ∈ keysOf pts, lookup' k pts = some (f (orig.map fun s0 => denote s0.points k))) →
      List.Forall₂ (fun t s0 => t.points = s0.points ∧ Inv t) st orig →
      (keysOf (combineInner f ks pts uns st).1).Nodup ∧
      (∀ k, k ∈ keysOf (combineInner f ks pts uns st).1 ↔ k ∈ keysOf pts ∨ k ∈ ks) ∧
      (∀ k, k ∈ keysOf (combineInner f ks pts uns st).1 →
        lookup' k (combineInner f ks pts uns st).1 =
          some (f (orig.map fun s0 => denote s0.points k))) ∧
      List.Forall₂ (fun t s0 => t.points = s0.points ∧ Inv t)
        (combineInner f ks pts uns st).2.2 orig := by
  intro ks
  induction ks with
  | nil =>
      intro pts uns st hnd hval hf
      exact ⟨hnd, fun k => by simp [combineInner], hval, hf⟩
  | cons k0 ks ih =>
      intro pts uns st hnd hval hf
      rcases hl : lookup' k0 pts with _ | v
      · have hstep : combineInner f (k0 :: ks) pts uns st =
            combineInner f ks ((k0, f (getValues k0 st).1) :: pts) (uns ++ [k0])
              (getValues k0 st).2 := by
          simp only [combineInner]
          rw [hl]
        obtain ⟨hgv, hgf⟩ := getValues_spec k0 hf
        have hk0 : k0 ∉ keysOf pts := lookup'_eq_none_iff.mp hl
        have hkeyscons : keysOf ((k0, f (getValues k0 st).1) :: pts) = k0 :: keysOf pts := rfl
        have hnd' : (keysOf ((k0, f (getValues k0 st).1) :: pts)).Nodup := by
          rw [hkeyscons, List.nodup_cons]
          exact ⟨hk0, hnd⟩
        have hval' : ∀ kk ∈ keysOf ((k0, f (getValues k0 st).1) :: pts),
            lookup' kk ((k0, f (getValues k0 st).1) :: pts) =
              some (f (orig.map fun s0 => denote s0.points kk)) := by
          intro kk hkk
          rw [hkeyscons, List.mem_cons] at hkk
          rcases hkk with hkk | hkk
          · subst hkk
            simp only [lookup']
            simp [hgv]
          · have hne : kk ≠ k0 := fun hc => hk0 (hc ▸ hkk)
            simp only [lookup']
            rw [if_neg hne]
            exact hval kk hkk
        obtain ⟨a, b, c, d⟩ := ih ((k0, f (getValues k0 st).1) :: pts) (uns ++ [k0])
          (getValues k0 st).2 hnd' hval' hgf
        rw [hstep]
        refine ⟨a, fun kk => ?_, c, d⟩
        rw [b kk, hkeyscons]
        simp only [List.mem_cons]
        tauto
      · have hstep : combineInner f (k0 :: ks) pts uns st = combineInner f ks pts uns st := by
          simp only [combineInner]
          rw [hl]
        obtain ⟨a, b, c, d⟩ := ih pts uns st hnd hval hf
        rw [hstep]
        refine ⟨a, fun kk => ?_, c, d⟩
        rw [b kk]
        have hk0 : k0 ∈ keysOf pts := lookup'_isSome_iff.mp (by rw [hl]; rfl)
        simp only [List.mem_cons]
        constructor
        · tauto
        · rintro (h | h | h)
          · exact Or.inl h
          · exact Or.inl (h ▸ hk0)
          · exact Or.inr h

theorem combineOuter_spec (f : List Int → Int) (orig : List Series) :
    ∀ (rem : List Series) (pts : List (Int × Int)) (uns : List Int) (st : List Series),
      (keysOf pts).Nodup →
      (∀ k ∈ keysOf pts, lookup' k pts = some (f (orig.map fun s0 => denote s0.points k))) →
      List.Forall₂ (fun t s0 => t.points = s0.points ∧ Inv t) st orig →
      (keysOf (combineOuter f rem pts uns st).1).Nodup ∧
      (∀ k, k ∈ keysOf (combineOuter f rem pts uns st).1 ↔
        k ∈ keysOf pts ∨ ∃ s0 ∈ rem, k ∈ keysOf s0.points) ∧
      (∀ k, k ∈ keysOf (combineOuter f rem pts uns st).1 →
        lookup' k (combineOuter f rem pts uns st).1 =
          some (f (orig.map fun s0 => denote s0.points k))) ∧
      List.Forall₂ (fun t s0 => t.points = s0.points ∧ Inv t)
        (combineOuter f rem pts uns st).2.2 orig := by
  intro rem
  induction rem with
  | nil =>
      intro pts uns st hnd hval hf
      exact ⟨hnd, fun k => by simp [combineOuter], hval, hf⟩
  | cons s rem ih =>
      intro pts uns st hnd hval hf
      have hstep : combineOuter f (s :: rem) pts uns st =
          combineOuter f rem (combineInner f (keysOf s.points) pts uns st).1
            (combineInner f (keysOf s.points) pts uns st).2.1
            (combineInner f (keysOf s.points) pts uns st).2.2 := by
        simp only [combineOuter]
      obtain ⟨a1, b1, c1, d1⟩ := combineInner_spec f orig (keysOf s.points) pts uns st hnd hval hf
      obtain ⟨a2, b2, c2, d2⟩ := ih (combineInner f (keysOf s.points) pts uns st).1
        (combineInner f (keysOf s.points) pts uns st).2.1
        (combineInner f (keysOf s.points) pts uns st).2.2 a1 (fun k hk => c1 k hk) d1
      rw [hstep]
      refine ⟨a2, fun kk => ?_, c2, d2⟩
      rw [b2 kk]
      rw [b1 kk]
      constructor
      · rintro ((h | h) | h)
        · exact Or.inl h
        · exact Or.inr ⟨s, List.mem_cons_self s rem, h⟩
        · obtain ⟨s0, hs0, hks0⟩ := h
          exact Or.inr ⟨s0, List.mem_cons_of_mem s hs0, hks0⟩
      · rintro (h | ⟨s0, hs0, hks0⟩)
        · exact Or.inl (Or.inl h)
        · rcases List.mem_cons.mp hs0 with h' | h'
          · exact Or.inl (Or.inr (h' ▸ hks0))
          · exact Or.inr ⟨s0, h', hks0⟩

theorem isEmpty_false_of_mem {pts : List (Int × Int)} {x : Int} (h : x ∈ keysOf pts) :
    pts.isEmpty = false := by
  cases pts
  · simp [keysOf] at h
  · rfl

theorem eraseKey_length {pts : List (Int × Int)} (hnd : (keysOf pts).Nodup) {x : Int}
    (hx : x ∈ keysOf pts) : (eraseKey x pts).length + 1 = pts.length := by
  induction pts with
  | nil => simp [keysOf] at hx
  | cons p rest ih =>
      obtain ⟨k, v⟩ := p
      have hkeys : keysOf ((k, v) :: rest) = k :: keysOf rest := rfl
      rw [hkeys, List.nodup_cons] at hnd
      by_cases hkx : k = x
      · subst hkx
        have hstep : eraseKey k ((k, v) :: rest) = eraseKey k rest := by
          unfold eraseKey
          rw [List.filter_cons, if_neg (by simp)]
        have hid : eraseKey k rest = rest := by
          unfold eraseKey
          apply List.filter_eq_self.mpr
          intro p hp
          have hp1 : p.1 ∈ keysOf rest := List.mem_map_of_mem Prod.fst hp
          have : p.1 ≠ k := fun hc => hnd.1 (hc ▸ hp1)
          simpa using this
        rw [hstep, hid, List.length_cons]
      · have hstep : eraseKey x ((k, v) :: rest) = (k, v) :: eraseKey x rest := by
          unfold eraseKey
          rw [List.filter_cons, if_pos (by simpa using hkx)]
        have hx' : x ∈ keysOf rest := by
          rw [hkeys, List.mem_cons] at hx
          rcases hx with hx | hx
          · exact absurd hx.symm hkx
          · exact hx
        have := ih hnd.2 hx'
        rw [hstep]
        simp only [List.length_cons]
        omega

/-! The claims. -/

/-- C1: floor-interpolation correctness of Get. For every container
satisfying the struct invariants and every query x: if x is an exact stored
key, Get(x) returns the stored y; otherwise, if x₀ is the greatest stored
key ≤ x, the value stored at x₀ is Get(x); and if every stored key exceeds
x (in particular on an empty container), Get(x) = 0. -/
theorem get_floor_correct (s : Series) (x : Int) (h : Inv s) :
    (∀ y, lookup' x s.points = some y → (s.Get x).1 = y) ∧
    (lookup' x s.points = none →
      ((∀ k ∈ keysOf s.points, x < k) → (s.Get x).1 = 0) ∧
      (∀ x0, x0 ∈ keysOf s.points → x0 ≤ x →
        (∀ k ∈ keysOf s.points, k ≤ x → k ≤ x0) →
        lookup' x0 s.points = some ((s.Get x).1))) := by
  constructor
  · intro y hy
    rw [get_eq_denote h x]
    have hx : x ∈ keysOf s.points := lookup'_isSome_iff.mp (by rw [hy]; rfl)
    rw [denote_of_greatest h.1 hx (le_refl x) (fun k _ hk => hk)]
    unfold lookupD
    rw [hy]
    rfl
  · intro _
    constructor
    · intro hall
      rw [get_eq_denote h x]
      exact denote_of_all_gt hall
    · intro x0 hmem hle hmax
      rw [get_eq_denote h x, denote_of_greatest h.1 hmem hle hmax]
      exact lookup'_of_mem hmem

/-- C1 witness: the container {32:-7, -5:20} at query 0 satisfies the
invariant, and the theorem yields Get(0) = 20 (the value at the greatest
stored key -5 ≤ 0). -/
theorem get_floor_correct_witness :
    Inv (NewSeriesData [(32, -7), (-5, 20)]) ∧
    ((NewSeriesData [(32, -7), (-5, 20)]).Get 0).1 = 20 := by
  refine ⟨by decide, ?_⟩
  have h2 := (get_floor_correct (NewSeriesData [(32, -7), (-5, 20)]) 0 (by decide)).2
    (by decide)
  have h3 := h2.2 (-5) (by decide) (by decide) (by decide)
  have h4 : lookup' (-5) (NewSeriesData [(32, -7), (-5, 20)]).points = some 20 := by decide
  exact (Option.some_inj.mp (h4.symm.trans h3)).symm

/-- C2: the Combine contract. For inputs satisfying the invariants, the
key set of Combine(f, list) is exactly the union of the inputs' stored key
sets, the stored value at each such key k is f applied to the list of the
inputs' Get(k) values in input order, and zero inputs give the empty
container. -/
theorem combine_contract (f : List Int → Int) (list : List Series)
    (h : ∀ s ∈ list, Inv s) :
    (∀ k, k ∈ keysOf (Combine f list).points ↔ ∃ s ∈ list, k ∈ keysOf s.points) ∧
    (∀ k, k ∈ keysOf (Combine f list).points →
      lookup' k (Combine f list).points = some (f (list.map fun s => (s.Get k).1))) ∧
    (list = [] → Combine f list = NewSeries) := by
  have hforall : List.Forall₂ (fun t s0 => t.points = s0.points ∧ Inv t) list list :=
    List.forall₂_same.mpr (fun s hs => ⟨rfl, h s hs⟩)
  obtain ⟨a, b, c, d⟩ := combineOuter_spec f list list [] [] list (by simp [keysOf])
    (by simp [keysOf]) hforall
  have hpts : (Combine f list).points = (combineOuter f list [] [] list).1 := rfl
  refine ⟨?_, ?_, ?_⟩
  · intro k
    rw [hpts, b k]
    simp [keysOf]
  · intro k hk
    rw [hpts] at hk ⊢
    rw [c k hk]
    have hmaps : list.map (fun s0 => denote s0.points k) = list.map fun s => (s.Get k).1 :=
      List.map_congr_left fun s hs => (get_eq_denote (h s hs) k).symm
    rw [hmaps]
  · intro hnil
    subst hnil
    rfl

/-- C2 witness: Combine(Sum) of the single invariant-satisfying container
{1:5} has key 2 exactly when some input stores key 2. -/
theorem combine_contract_witness :
    (∀ s ∈ [NewSeriesData [(1, 5)]], Inv s) ∧
    (2 ∈ keysOf (Combine Sum [NewSeriesData [(1, 5)]]).points ↔
      ∃ s ∈ [NewSeriesData [(1, 5)]], 2 ∈ keysOf s.points) :=
  ⟨by decide, (combine_contract Sum [NewSeriesData [(1, 5)]] (by decide)).1 2⟩

/-- C3: invariant preservation. Every container reachable from NewSeries or
NewSeriesData through the public operations (Set, Remove, Compact, Get, Xs,
X0, Floor, Ceiling, Copy — Has, Size and Equals read only the map and leave
the state untouched) satisfies I1 and I2: the map keys are exactly the
disjoint union of `sorted` and `unsorted`, with `sorted` strictly
increasing. -/
theorem reachable_inv (s : Series) (h : Reachable s) : Inv s := by
  induction h with
  | new => exact inv_NewSeries
  | newData data hd => exact inv_NewSeriesData hd
  | set s x y _ ih => exact set_inv ih x y
  | remove s x _ ih => exact remove_inv ih x
  | compact s _ ih => exact compact_inv ih
  | get s x _ ih => exact get_inv ih x
  | xs s _ ih => exact xs_inv ih
  | x0 s _ ih => exact x0_inv ih
  | floor s x _ ih => exact floor_inv ih x
  | ceiling s x _ ih => exact ceiling_inv ih x
  | copySrc s _ ih => exact copy_src_inv ih
  | copyNew s _ ih => exact copy_new_inv ih

/-- C3 witness: the container built by NewSeriesData {1:2, 3:4} followed by
Set(5, 6) is reachable and satisfies the invariants. -/
theorem reachable_inv_witness :
    Reachable ((NewSeriesData [(1, 2), (3, 4)]).Set 5 6) ∧
    Inv ((NewSeriesData [(1, 2), (3, 4)]).Set 5 6) :=
  have hr : Reachable ((NewSeriesData [(1, 2), (3, 4)]).Set 5 6) :=
    Reachable.set _ 5 6 (Reachable.newData _ (by decide))
  ⟨hr, reachable_inv _ hr⟩

/-- C4: compaction preserves Get. For every container satisfying the
invariants and every query x, Get(x) after Compact() equals Get(x)
before. -/
theorem compact_get_preserved (s : Series) (x : Int) (h : Inv s) :
    (s.Compact.Get x).1 = (s.Get x).1 := by
  rw [get_eq_denote (compact_inv h) x, get_eq_denote h x, denote_compact h x]

/-- C4 witness: on the container with redundant points, Get(21) is the same
before and after Compact. -/
theorem compact_get_preserved_witness :
    Inv (NewSeriesData [(0, 0), (2, 10), (4, 10), (5, 9), (10, 8), (20, 8), (22, 8), (30, 0)]) ∧
    ((NewSeriesData [(0, 0), (2, 10), (4, 10), (5, 9), (10, 8), (20, 8), (22, 8), (30, 0)]).Compact.Get 21).1 =
      ((NewSeriesData [(0, 0), (2, 10), (4, 10), (5, 9), (10, 8), (20, 8), (22, 8), (30, 0)]).Get 21).1 :=
  ⟨by decide, compact_get_preserved _ 21 (by decide)⟩

/-- C5: Compact removes a stored point exactly when it immediately follows,
in ascending key order, a retained point with the same y (the recursion
compactSpec/keepSpec: the running value is the y of the last retained
point), the first stored point is always retained (compactSpec keeps the
head unconditionally, whatever its y, so the head of the stored points is
unchanged), and the container built from
{0:0, 2:10, 4:10, 5:9, 10:8, 20:8, 22:8, 30:0} compacts to exactly
{0:0, 2:10, 5:9, 10:8, 30:0}. -/
theorem compact_removes_redundant (s : Series) (h : Inv s) :
    canonPairs s.Compact.points = compactSpec (canonPairs s.points) ∧
    (canonPairs s.Compact.points).headD (0, 0) = (canonPairs s.points).headD (0, 0) ∧
    canonPairs (NewSeriesData
        [(0, 0), (2, 10), (4, 10), (5, 9), (10, 8), (20, 8), (22, 8), (30, 0)]).Compact.points =
      [(0, 0), (2, 10), (5, 9), (10, 8), (30, 0)] := by
  refine ⟨compact_canonPairs h, ?_, by decide⟩
  rw [compact_canonPairs h]
  cases canonPairs s.points with
  | nil => rfl
  | cons p rest => obtain ⟨k, v⟩ := p; rfl

/-- C5 witness: the theorem applied to the redundant-points container. -/
theorem compact_removes_redundant_witness :
    Inv (NewSeriesData [(0, 0), (2, 10), (4, 10), (5, 9), (10, 8), (20, 8), (22, 8), (30, 0)]) ∧
    canonPairs (NewSeriesData
        [(0, 0), (2, 10), (4, 10), (5, 9), (10, 8), (20, 8), (22, 8), (30, 0)]).Compact.points =
      compactSpec (canonPairs (NewSeriesData
        [(0, 0), (2, 10), (4, 10), (5, 9), (10, 8), (20, 8), (22, 8), (30, 0)]).points) :=
  ⟨by decide, (compact_removes_redundant _ (by decide)).1⟩

/-- C6: compaction idempotence. For every container satisfying the
invariants, the stored-point set (keys and values, read off in canonical
ascending order) after two Compact calls equals the one after a single
call. -/
theorem compact_idem (s : Series) (h : Inv s) :
    canonPairs s.Compact.Compact.points = canonPairs s.Compact.points := by
  rw [compact_canonPairs (compact_inv h), compact_canonPairs h, compactSpec_idem]

/-- C6 witness: the theorem applied to the redundant-points container. -/
theorem compact_idem_witness :
    Inv (NewSeriesData [(0, 0), (2, 10), (4, 10), (5, 9), (10, 8), (20, 8), (22, 8), (30, 0)]) ∧
    canonPairs (NewSeriesData
        [(0, 0), (2, 10), (4, 10), (5, 9), (10, 8), (20, 8), (22, 8), (30, 0)]).Compact.Compact.points =
      canonPairs (NewSeriesData
        [(0, 0), (2, 10), (4, 10), (5, 9), (10, 8), (20, 8), (22, 8), (30, 0)]).Compact.points :=
  ⟨by decide, compact_idem _ (by decide)⟩

/-- C7: Ceiling/Floor duality at exact stored keys. For every container
satisfying the invariants and every exact stored key x, Floor(x) returns
(x, true), Ceiling(x) returns (x, true), and Ceiling decides this case
without merging: its returned state is the untouched input state. -/
theorem floor_ceiling_exact (s : Series) (x : Int) (h : Inv s)
    (hx : x ∈ keysOf s.points) :
    (s.Floor x).1 = (x, true) ∧ (s.Ceiling x).1 = (x, true) ∧ (s.Ceiling x).2 = s := by
  have hemp : s.points.isEmpty = false := isEmpty_false_of_mem hx
  have hlook : lookup' x s.points = some (lookupD x s.points) := lookup'_of_mem hx
  have hfloor : (s.Floor x).1 = (x, true) := by
    unfold Series.Floor
    rw [hemp]
    rw [if_neg (by simp)]
    dsimp only
    have hs1 : List.Sorted (· < ·) s.sort.sorted := (sort_inv h).2.2
    have hxs : x ∈ s.sort.sorted := (sort_sorted_perm_keys s h).mem_iff.mpr hx
    obtain ⟨r, hf, hr, hgr⟩ := find_exact s.sort x hs1 hxs
    rw [hf]
    rw [if_neg (by omega)]
    rw [Int.toNat_natCast, hgr]
  refine ⟨hfloor, ?_, ?_⟩
  · unfold Series.Ceiling
    rw [hemp]
    rw [if_neg (by simp), hlook]
  · unfold Series.Ceiling
    rw [hemp]
    rw [if_neg (by simp), hlook]

/-- C7 witness: on {32:-7, -5:20}, Floor(-5) and Ceiling(-5) are both
(-5, true) and Ceiling leaves the state untouched. -/
theorem floor_ceiling_exact_witness :
    Inv (NewSeriesData [(32, -7), (-5, 20)]) ∧
    ((NewSeriesData [(32, -7), (-5, 20)]).Floor (-5)).1 = (-5, true) ∧
    ((NewSeriesData [(32, -7), (-5, 20)]).Ceiling (-5)).1 = (-5, true) ∧
    ((NewSeriesData [(32, -7), (-5, 20)]).Ceiling (-5)).2 = NewSeriesData [(32, -7), (-5, 20)] :=
  ⟨by decide, floor_ceiling_exact _ (-5) (by decide) (by decide)⟩

/-- C9: Remove is exact and atomic. If x is not a stored key, Remove(x)
returns the state unchanged (not even a merge). If x is stored, Remove(x)
deletes exactly the point at x: afterwards x has no stored value, every
other key's stored value is unchanged, and Size drops by one. -/
theorem remove_exact (s : Series) (x : Int) (h : Inv s) :
    (lookup' x s.points = none → s.Remove x = s) ∧
    (∀ y, lookup' x s.points = some y →
      lookup' x (s.Remove x).points = none ∧
      (∀ k, k ≠ x → lookup' k (s.Remove x).points = lookup' k s.points) ∧
      (s.Remove x).Size + 1 = s.Size) := by
  constructor
  · intro hl
    unfold Series.Remove
    rw [hl]
  · intro y hl
    have hx : x ∈ keysOf s.points := lookup'_isSome_iff.mp (by rw [hl]; rfl)
    have hrem : (s.Remove x).points = eraseKey x s.sort.points := by
      unfold Series.Remove
      rw [hl]
    refine ⟨?_, ?_, ?_⟩
    · rw [hrem, sort_points]
      exact lookup'_eraseKey_self x s.points
    · intro k hk
      rw [hrem, sort_points, lookup'_eraseKey_ne hk]
    · show (s.Remove x).points.length + 1 = s.points.length
      rw [hrem, sort_points]
      exact eraseKey_length h.1 hx

/-- C9 witness: removing the present key -5 from {32:-7, -5:20} empties
its slot, keeps the value at 32, and shrinks the size from 2 to 1; a
Remove of the absent key 7 is the identity. -/
theorem remove_exact_witness :
    Inv (NewSeriesData [(32, -7), (-5, 20)]) ∧
    lookup' (-5) ((NewSeriesData [(32, -7), (-5, 20)]).Remove (-5)).points = none ∧
    ((NewSeriesData [(32, -7), (-5, 20)]).Remove (-5)).Size + 1 =
      (NewSeriesData [(32, -7), (-5, 20)]).Size ∧
    (NewSeriesData [(32, -7), (-5, 20)]).Remove 7 = NewSeriesData [(32, -7), (-5, 20)] := by
  refine ⟨by decide, ?_, ?_, ?_⟩
  · exact (((remove_exact (NewSeriesData [(32, -7), (-5, 20)]) (-5) (by decide)).2) 20 (by decide)).1
  · exact (((remove_exact (NewSeriesData [(32, -7), (-5, 20)]) (-5) (by decide)).2) 20 (by decide)).2.2
  · exact (remove_exact (NewSeriesData [(32, -7), (-5, 20)]) 7 (by decide)).1 (by decide)

theorem forall₂_frame :
    ∀ {st ls : List Series},
      List.Forall₂ (fun t s0 => t.points = s0.points ∧ Inv t) st ls →
      (∀ s ∈ ls, Inv s) →
      List.Forall₂
        (fun t s0 => t.points = s0.points ∧
          (∀ x, (t.Get x).1 = (s0.Get x).1) ∧
          t.Size = s0.Size ∧
          (∀ x, t.Has x = s0.Has x) ∧
          t.Xs.1 = s0.Xs.1) st ls := by
  intro st ls hf2
  induction hf2 with
  | nil => intro _; exact List.Forall₂.nil
  | cons hr htail ih =>
      intro hinv
      rename_i t s0 st2 ls2
      refine List.Forall₂.cons ?_ (ih fun s hs => hinv s (List.mem_cons_of_mem _ hs))
      obtain ⟨hpt, hinvt⟩ := hr
      have hinv0 : Inv s0 := hinv s0 (List.mem_cons_self _ _)
      refine ⟨hpt, ?_, ?_, ?_, ?_⟩
      · intro x
        rw [get_eq_denote hinvt x, get_eq_denote hinv0 x, hpt]
      · show t.points.length = s0.points.length
        rw [hpt]
      · intro x
        show (lookup' x t.points).isSome = (lookup' x s0.points).isSome
        rw [hpt]
      · rw [xs_val hinvt, xs_val hinv0, hpt]

/-- C10: the frame property of Combine. Running Combine threads each input
container through Get calls, which may merge its pending buffer, but the
final state of every input keeps the same stored map: its points list is
unchanged, and Get at every x, Size, Has at every x and Xs all return the
same values as on the original state. -/
theorem combine_frame (f : List Int → Int) (list : List Series)
    (h : ∀ s ∈ list, Inv s) :
    List.Forall₂
      (fun t s0 => t.points = s0.points ∧
        (∀ x, (t.Get x).1 = (s0.Get x).1) ∧
        t.Size = s0.Size ∧
        (∀ x, t.Has x = s0.Has x) ∧
        t.Xs.1 = s0.Xs.1)
      (combineOuter f list [] [] list).2.2 list := by
  have hforall : List.Forall₂ (fun t s0 => t.points = s0.points ∧ Inv t) list list :=
    List.forall₂_same.mpr (fun s hs => ⟨rfl, h s hs⟩)
  obtain ⟨a, b, c, d⟩ := combineOuter_spec f list list [] [] list (by simp [keysOf])
    (by simp [keysOf]) hforall
  exact forall₂_frame d h

/-- C10 witness: the theorem applied to Combine(Sum) over the two example
containers; both threaded states keep their stored maps and observables. -/
theorem combine_frame_witness :
    (∀ s ∈ [NewSeriesData [(-5, 3), (0, 0), (123, 1)],
      NewSeriesData [(-10, 1), (0, 2), (50, 0)]], Inv s) ∧
    List.Forall₂
      (fun t s0 => t.points = s0.points ∧
        (∀ x, (t.Get x).1 = (s0.Get x).1) ∧
        t.Size = s0.Size ∧
        (∀ x, t.Has x = s0.Has x) ∧
        t.Xs.1 = s0.Xs.1)
      (combineOuter Sum [NewSeriesData [(-5, 3), (0, 0), (123, 1)],
          NewSeriesData [(-10, 1), (0, 2), (50, 0)]] [] []
        [NewSeriesData [(-5, 3), (0, 0), (123, 1)],
          NewSeriesData [(-10, 1), (0, 2), (50, 0)]]).2.2
      [NewSeriesData [(-5, 3), (0, 0), (123, 1)],
        NewSeriesData [(-10, 1), (0, 2), (50, 0)]] :=
  ⟨by decide, combine_frame Sum _ (by decide)⟩

/-- C8 counterexample: Combine(Any, {-5:3, 0:0, 123:1}, {-10:1, 0:2, 50:0})
does not yield a container whose stored points are exactly
{-10:1, 50:0, 123:1}: the key -5 is stored in the result (the key set is
the union of the input key sets), so its canonical stored-point list is
not [(-10,1), (50,0), (123,1)]. -/
theorem combine_any_counterexample :
    (Combine Any [NewSeriesData [(-5, 3), (0, 0), (123, 1)],
        NewSeriesData [(-10, 1), (0, 2), (50, 0)]]).Has (-5) = true ∧
    canonPairs (Combine Any [NewSeriesData [(-5, 3), (0, 0), (123, 1)],
        NewSeriesData [(-10, 1), (0, 2), (50, 0)]]).points ≠
      [(-10, 1), (50, 0), (123, 1)] := by
  decide

/-- C8 amended: Combine(Any, {-5:3, 0:0, 123:1}, {-10:1, 0:2, 50:0}) yields
the container with stored points {-10:1, -5:1, 0:1, 50:0, 123:1}; after
Compact() the stored points are exactly {-10:1, 50:0, 123:1}. -/
theorem combine_any_compacted :
    canonPairs (Combine Any [NewSeriesData [(-5, 3), (0, 0), (123, 1)],
        NewSeriesData [(-10, 1), (0, 2), (50, 0)]]).points =
      [(-10, 1), (-5, 1), (0, 1), (50, 0), (123, 1)] ∧
    canonPairs (Combine Any [NewSeriesData [(-5, 3), (0, 0), (123, 1)],
        NewSeriesData [(-10, 1), (0, 2), (50, 0)]]).Compact.points =
      [(-10, 1), (50, 0), (123, 1)] := by
  decide

end Traces
